import Mathlib

/-!
Verification of the NanGram context-free grammar engine (Python sources:
`nangram/element.py`, `nangram/grammar.py`, `nangram/node.py`, `nangram/util.py`).

The embedding is a direct shallow translation of the Python code:

* Python strings are `List Char`; Python slices `s[a:b]` (with clamping, for
  nonnegative `a`, `b`) are `(s.drop a).take (b - a)`.
* The lazy generator pipelines of the source are modelled as strict lists.
  Python exceptions (`KeyError` from an undefined rule lookup, `IndexError`
  from out-of-range indexing) and the non-termination of unbounded recursion
  are modelled with `Except Err`: a computation that raises returns `.error`,
  and every recursive function takes a fuel argument, decremented at every
  call, returning `.error .fuelExhausted` when it runs out.  A `.ok` result
  is the genuine (finite, exception-free) value of the Python computation:
  fuel exhaustion is a distinct error, never a silently truncated answer.
* `element.py` does `from .util import *` and uses `label_node`,
  `parse_choice` which are *not defined anywhere under src/* (nor is the
  package `__init__.py` present).  Those two functions are modelled from the
  spec (see their doc comments); everything else is translated from source.
-/

/-- Errors of the embedded computations.  `keyError name` models the Python
`KeyError` raised by the dict lookup `grammar.rules[name]`; `indexError`
models the `IndexError` raised by out-of-range `string[position]`;
`fuelExhausted` means the modelled computation did not finish within the
given recursion budget (the Python original would still be running). -/
inductive Err : Type where
  | keyError (name : String)
  | indexError
  | fuelExhausted
deriving DecidableEq, Repr

/-- Parse tree node, from `node.py` `Node`.  The Python dataclass fields are
`grammar, rule, string, region, children, label`; the `grammar` back-reference
is never consulted by any of the behaviour verified here and is omitted; the
slice `region` is split into its `start`/`stop` endpoints.  (`Node` must be an
`inductive` rather than a `structure` because `children` nests `Node`.) -/
inductive Node : Type where
  | mk (rule : String) (str : List Char) (start stop : Nat)
       (children : List Node) (label : Option String) : Node
deriving Repr

def Node.rule : Node → String
  | .mk r _ _ _ _ _ => r

def Node.str : Node → List Char
  | .mk _ s _ _ _ _ => s

def Node.start : Node → Nat
  | .mk _ _ a _ _ _ => a

def Node.stop : Node → Nat
  | .mk _ _ _ b _ _ => b

def Node.children : Node → List Node
  | .mk _ _ _ _ c _ => c

def Node.label : Node → Option String
  | .mk _ _ _ _ _ l => l

/-- `Node.parsed_string` from `node.py`: `self.string[self.region]`. -/
def Node.parsed_string (n : Node) : List Char :=
  (n.str.drop n.start).take (n.stop - n.start)

/-- `Node.is_complete` from `node.py`: `self.string == self.parsed_string`. -/
def Node.is_complete (n : Node) : Bool :=
  n.str == n.parsed_string

/-- `Node.is_empty` from `node.py`: `self.parsed_string == ''`. -/
def Node.is_empty (n : Node) : Bool :=
  n.parsed_string == []

mutual

/-- `Node.get` from `node.py`, translated exactly: for each child, if its
label equals the searched label it is yielded; otherwise, if its label is not
in `exclude`, the search recurses as `child.get(label)` — the Python recursive
call passes *no* exclude argument, so the recursion uses the default `[]`
(this is the behaviour under scrutiny in the exclusion claim).  A `none`
label is never equal to the searched string and is never in the exclusion
list (Python `None == label` is false and `None not in exclude` is true for
a list of strings).

The `for child in self.children` loop is the helper `Node.getChildren`. -/
def Node.get : Node → String → List String → List Node
  | .mk _ _ _ _ children _, label, exclude =>
      Node.getChildren children label exclude

/-- The `for child in self.children` loop body of `Node.get`. -/
def Node.getChildren : List Node → String → List String → List Node
  | [], _, _ => []
  | child :: rest, label, exclude =>
      (if child.label == some label then [child]
       else if (match child.label with
                | none => false
                | some l => exclude.contains l) then []
       else child.get label []) ++ Node.getChildren rest label exclude

end

/-- The element algebra, from `element.py`.  Each Python dataclass variant
carries its payload plus the shared `generation_override` and `label` fields
(Python default `None` is `none`).  `StringLiteralCharacter` additionally has
its `delimiter` (default `'"'`) and `escape_character` (default `'\\'`)
fields. -/
inductive Element : Type where
  | terminal (string : List Char) (generation_override : Option String)
      (label : Option String)
  | substitution (name : String) (generation_override : Option String)
      (label : Option String)
  | sequence (elements : List Element) (generation_override : Option String)
      (label : Option String)
  | choice (elements : List Element) (generation_override : Option String)
      (label : Option String)
  | option (element : Element) (generation_override : Option String)
      (label : Option String)
  | repetition (element : Element) (generation_override : Option String)
      (label : Option String)
  | stringLiteralCharacter (generation_override : Option String)
      (label : Option String) (delimiter escape_character : Char)
deriving Repr

/-- The `generation_override` field common to every `Element` variant. -/
def Element.generation_override : Element → Option String
  | .terminal _ ov _ => ov
  | .substitution _ ov _ => ov
  | .sequence _ ov _ => ov
  | .choice _ ov _ => ov
  | .option _ ov _ => ov
  | .repetition _ ov _ => ov
  | .stringLiteralCharacter ov _ _ _ => ov

/-- Grammar, from `grammar.py`: the rule mapping (a Python dict with unique
keys, modelled as an association list looked up by first match) and the three
generation bounds with their source defaults 8 / 4 / 8. -/
structure Grammar : Type where
  rules : List (String × Element)
  max_products : Nat := 8
  max_repetitions : Nat := 4
  max_recursions : Nat := 8

/-- `grammar.rules[name]` as a total lookup: `none` is Python's `KeyError`
case. -/
def rulesLookup (g : Grammar) (name : String) : Option Element :=
  (g.rules.find? fun pr => pr.1 == name).map Prod.snd

/-- Python truthiness of an optional string: `None` and `''` are falsy.
Used wherever the source tests `if self.generation_override:` or
`if self.label:`. -/
def strTruthy : Option String → Bool
  | none => false
  | some s => s != ""

/-- Modelled from the spec: `label_node` is imported into `element.py` from
`util` but is missing from src/.  Per the spec's label-wrapping rule,
"whenever a variant has a non-empty label, its result Node is additionally
wrapped exactly once with a new parent Node of the same region/rule but
carrying the label, with the original as sole child"; with no (or an empty,
hence falsy) label the nodes pass through unchanged. -/
def label_node (nodes : List Node) (label : Option String) : List Node :=
  if strTruthy label then
    nodes.map fun n => Node.mk n.rule n.str n.start n.stop [n] label
  else nodes

/-- The wrapping done inline by `Repetition.parse`
(`element.py` lines 211-214): `if self.label:` wrap the node in
`Node(grammar, rule, string, node.region, [node], label=self.label)`,
else yield the node unchanged. -/
def repWrap (rule : String) (s : List Char) (label : Option String)
    (node : Node) : Node :=
  if strTruthy label then Node.mk rule s node.start node.stop [node] label
  else node

/-- The composite node built by `util.py` `parse_sequence` from one full
assignment of children: region spans from the first child's start to the
last child's stop.  The child list produced by `sequential_choices` is never
empty; the `[]` case is unreachable and returns a zero-width node at
`position`. -/
def composeNode (rule : String) (s : List Char) (position : Nat)
    (children : List Node) : Node :=
  match children with
  | [] => Node.mk rule s position position [] none
  | c :: rest => Node.mk rule s c.start (rest.getLastD c).stop children none

mutual

/-- `Element.parse` dispatch, from `element.py`.  Each variant translated
from its `parse` method:
* `Terminal.parse` (lines 63-68): one candidate exactly when
  `string[position : position+len(literal)] == literal`.
* `Substitution.parse` (lines 91-94): look the rule up (raising `KeyError`
  when absent), parse it with `rule` switched to the referenced name, wrap
  with `label_node`.
* `Sequence.parse` (lines 117-120): `label_node(parse_sequence(...))`.
* `Choice.parse` (lines 144-147): `label_node(parse_choice(...))`.
* `Option.parse` (lines 171-176): a zero-width node first, then the
  label-wrapped candidates of the inner element.
* `Repetition.parse` (lines 201-216): a zero-width node first, then the
  counting loop `repLoop` below.
* `StringLiteralCharacter.parse` (lines 248-258): indexes
  `string[position]` (an `IndexError` when `position >= len(string)`!);
  an escape character spans `[position+1, position+2)`, the bare delimiter
  yields nothing, any other character spans `[position, position+1)`. -/
def parseElem (fuel : Nat) (g : Grammar) (e : Element) (rule : String)
    (s : List Char) (position : Nat) : Except Err (List Node) :=
  match fuel with
  | 0 => .error .fuelExhausted
  | f + 1 =>
    match e with
    | .terminal lit _ lab =>
        if (s.drop position).take lit.length = lit then
          .ok [Node.mk rule s position (position + lit.length) [] lab]
        else .ok []
    | .substitution name _ lab =>
        match rulesLookup g name with
        | none => .error (.keyError name)
        | some el => do
            let inner ← parseElem f g el name s position
            .ok (label_node inner lab)
    | .sequence els _ lab => do
        let nodes ← parse_sequence f g els rule s position
        .ok (label_node nodes lab)
    | .choice els _ lab => do
        let nodes ← parse_choice f g els rule s position
        .ok (label_node nodes lab)
    | .option el _ lab => do
        let inner ← parseElem f g el rule s position
        .ok (Node.mk rule s position position [] lab :: label_node inner lab)
    | .repetition el _ lab => do
        let rest ← repLoop f g el lab rule s position 1
        .ok (Node.mk rule s position position [] lab :: rest)
    | .stringLiteralCharacter _ lab delim esc =>
        if h : position < s.length then
          let character := s.get ⟨position, h⟩
          if character = esc then
            .ok [Node.mk rule s (position + 1) (position + 2) [] lab]
          else if character = delim then .ok []
          else .ok [Node.mk rule s position (position + 1) [] lab]
        else .error .indexError
termination_by structural fuel

/-- `util.py` `parse_sequence` (lines 38-54): compose every full assignment
produced by `sequential_choices` into one node. -/
def parse_sequence (fuel : Nat) (g : Grammar) (elements : List Element)
    (rule : String) (s : List Char) (position : Nat) :
    Except Err (List Node) :=
  match fuel with
  | 0 => .error .fuelExhausted
  | f + 1 => do
      let choices ← seqChoices f g elements rule s position
      .ok (choices.map fun children => composeNode rule s position children)
termination_by structural fuel

/-- The inner `sequential_choices` of `util.py` `parse_sequence`: with no
elements left, a single assignment holding one zero-width placeholder node at
`position`; otherwise parse the head and, for each head candidate (via
`goHeads`), recurse on the tail starting at that candidate's stop. -/
def seqChoices (fuel : Nat) (g : Grammar) (elements : List Element)
    (rule : String) (s : List Char) (position : Nat) :
    Except Err (List (List Node)) :=
  match fuel with
  | 0 => .error .fuelExhausted
  | f + 1 =>
    match elements with
    | [] => .ok [[Node.mk rule s position position [] none]]
    | head :: tail => do
        let hs ← parseElem f g head rule s position
        goHeads f g tail rule s hs
termination_by structural fuel

/-- The `for head_choice in head_choices` loop of `sequential_choices`:
for each head candidate, every tail assignment (computed at the head's stop)
is extended with the head, preserving order. -/
def goHeads (fuel : Nat) (g : Grammar) (tail : List Element) (rule : String)
    (s : List Char) (hs : List Node) : Except Err (List (List Node)) :=
  match fuel with
  | 0 => .error .fuelExhausted
  | f + 1 =>
    match hs with
    | [] => .ok []
    | hn :: rest => do
        let ts ← seqChoices f g tail rule s hn.stop
        let rs ← goHeads f g tail rule s rest
        .ok (ts.map (fun tc => hn :: tc) ++ rs)
termination_by structural fuel

/-- Modelled from the spec: `parse_choice` is imported into `element.py` from
`util` but is missing from src/.  Per the spec, Choice parsing is "the union
(concatenation) of each alternative's candidate sequence, in alternative
order", with no deduplication. -/
def parse_choice (fuel : Nat) (g : Grammar) (elements : List Element)
    (rule : String) (s : List Char) (position : Nat) :
    Except Err (List Node) :=
  match fuel with
  | 0 => .error .fuelExhausted
  | f + 1 =>
    match elements with
    | [] => .ok []
    | e :: es => do
        let l ← parseElem f g e rule s position
        let ls ← parse_choice f g es rule s position
        .ok (l ++ ls)
termination_by structural fuel

/-- The `for n in count(1)` loop of `Repetition.parse` (`element.py` lines
205-216): at count `n`, parse the sequence of `n` copies of the inner
element; if it yields nothing, stop; otherwise yield every candidate
(wrapped per `repWrap`) and continue with `n + 1`. -/
def repLoop (fuel : Nat) (g : Grammar) (el : Element) (lab : Option String)
    (rule : String) (s : List Char) (position : Nat) (n : Nat) :
    Except Err (List Node) :=
  match fuel with
  | 0 => .error .fuelExhausted
  | f + 1 => do
      let nodes ← parse_sequence f g (List.replicate n el) rule s position
      if nodes.isEmpty then .ok []
      else do
        let rest ← repLoop f g el lab rule s position (n + 1)
        .ok (nodes.map (repWrap rule s lab) ++ rest)
termination_by structural fuel

end

/-- `Grammar.parse` (`grammar.py` lines 29-37): look up the start rule
(a `KeyError` when absent) and parse from position 0. -/
def Grammar.parse (fuel : Nat) (g : Grammar) (s : List Char)
    (rule_name : String) : Except Err (List Node) :=
  match rulesLookup g rule_name with
  | none => .error (.keyError rule_name)
  | some el => parseElem fuel g el rule_name s 0

/-- `Grammar.parse_complete` (`grammar.py` lines 39-42): filter the parse
results to the complete trees. -/
def Grammar.parse_complete (fuel : Nat) (g : Grammar) (s : List Char)
    (rule_name : String) : Except Err (List Node) :=
  (Grammar.parse fuel g s rule_name).map (List.filter Node.is_complete)

/-- `itertools.product` over a list of lists, in the source order (first
factor varies slowest). -/
def listProd {α : Type} : List (List α) → List (List α)
  | [] => [[]]
  | l :: ls => l.flatMap fun x => (listProd ls).map fun xs => x :: xs

/-- `util.py` `get_length`: the length of a (finite) sequence. -/
def get_length {α : Type} (l : List α) : Nat := l.length

/-- Product of the factor lengths, as computed by `generate_product`:
`reduce(operator.mul, lengths, 1)`. -/
def prodLengths {α : Type} (gens : List (List α)) : Nat :=
  ((gens.map get_length).foldl (· * ·) 1)

/-- `util.py` `random_sample` (lines 19-31): the Python draws
`indices = random.sample(range(length), min(n, length))` and yields exactly
the items of the sequence whose enumeration index lies in `indices`.  The
randomly drawn index list is abstracted into the parameter `indices`
(theorems about sampling constrain it exactly as `random.sample` guarantees:
values below `length`, no duplicates, `min n length` of them). -/
def random_sample {α : Type} (indices : List Nat) (l : List α) : List α :=
  (l.enum.filter fun p => decide (p.1 ∈ indices)).map Prod.snd

/-- `util.py` `generate_product` (lines 56-68): sample at most
`grammar.max_products` tuples from the Cartesian product of the generator
outputs and join each sampled tuple.  (`''.join` on `List Char` strings is
`List.flatten`.)  The random index draw is the `indices` parameter, as in
`random_sample`. -/
def generate_product (g : Grammar) (indices : List Nat)
    (gens : List (List (List Char))) : List (List Char) :=
  (random_sample indices (listProd gens)).map List.flatten

/-- The full (unsampled) Cartesian product join: the conceptual candidate
space of `generate_product`.  Every string an actual run of
`generate_product` can yield is a member of this list, whatever indices the
random sampler draws (`generate_product_mem_productJoin` below). -/
def productJoin (gens : List (List (List Char))) : List (List Char) :=
  (listProd gens).map List.flatten

/-- `string.printable` of CPython, as a list of characters (the digits,
lowercase then uppercase letters, punctuation, then whitespace). -/
def pythonPrintable : List Char :=
  ("0123456789abcdefghijklmnopqrstuvwxyzABCDEFGHIJKLMNOPQRSTUVWXYZ" ++
   "!\"#$%&").data ++ ['\''] ++
  ("()*+,-./:;<=>?@[\\]^_`\x7b|\x7d~ \t\n\r\x0b\x0c").data

/-- `StringLiteralCharacter.escape` (`element.py` lines 234-237): prefix
every character with the escape character. -/
def slcEscape (esc : Char) (s : List Char) : List Char :=
  s.flatMap fun c => [esc, c]

/-- Replace the first occurrence of `old` in a list (Python
`xs[xs.index(old)] = new`; when `old` is absent Python raises, the model
leaves the list unchanged — the source only ever replaces characters present
in `string.printable`). -/
def replaceFirst {α : Type} [DecidableEq α] : List α → α → α → List α
  | [], _, _ => []
  | x :: xs, old, new =>
      if x = old then new :: xs else x :: replaceFirst xs old new

/-- The candidate list built by `StringLiteralCharacter.generate`
(`element.py` lines 239-246): `string.printable` as one-character strings,
with the escape character and the delimiter replaced by their escaped
forms. -/
def slcCharacters (delim esc : Char) : List (List Char) :=
  replaceFirst
    (replaceFirst (pythonPrintable.map fun c => [c]) [esc] (slcEscape esc [esc]))
    [delim] (slcEscape esc [delim])

mutual

/-- `Element._generate` (`element.py` lines 18-32), the outer generation
dispatch: when `depth < grammar.max_recursions`, a truthy (non-`None`,
non-empty) `generation_override` yields just that literal, otherwise the
variant's `generate` runs; when the depth bound is reached, nothing is
yielded (note the depth test wraps the override test in the source). -/
def genElem (fuel : Nat) (g : Grammar) (e : Element) (depth : Nat) :
    Except Err (List (List Char)) :=
  match fuel with
  | 0 => .error .fuelExhausted
  | f + 1 =>
    if depth < g.max_recursions then
      match e.generation_override with
      | some ov => if ov = "" then genVariant f g e depth else .ok [ov.data]
      | none => genVariant f g e depth
    else .ok []
termination_by structural fuel

/-- The per-variant `generate` methods of `element.py`:
* `Terminal.generate` (lines 55-61): yield the literal once.
* `Substitution.generate` (lines 83-89): look the rule up (`KeyError` when
  absent) and delegate at the *same* depth.
* `Sequence.generate` (lines 109-115): the product of the children's
  generations at `depth + 1`, each combination joined.
* `Choice.generate` (lines 134-142): all alternatives' generations at
  `depth + 1`, concatenated in order.
* `Option.generate` (lines 161-169): the empty string, then the inner
  element's generation at `depth + 1`.
* `Repetition.generate` (lines 190-199): the empty string, then for
  `n = 1 .. max_repetitions - 1` the joined product of `n` copies of the
  inner element's generation at `depth + 1`.
* `StringLiteralCharacter.generate` (lines 239-246): the Python returns
  `random.choice(characters)` — a single *string*, which the caller then
  iterates character by character; the model returns the full space of
  strings any run can yield: every character of every entry of the
  candidate list, as a one-character string.

Where the source routes products through `generate_product` (which samples
a random subset of the full product), the model keeps the full product
`productJoin`, so the returned list contains every string any run can
yield. -/
def genVariant (fuel : Nat) (g : Grammar) (e : Element) (depth : Nat) :
    Except Err (List (List Char)) :=
  match fuel with
  | 0 => .error .fuelExhausted
  | f + 1 =>
    match e with
    | .terminal lit _ _ => .ok [lit]
    | .substitution name _ _ =>
        match rulesLookup g name with
        | none => .error (.keyError name)
        | some el => genElem f g el depth
    | .sequence els _ _ => do
        let gll ← genElems f g els (depth + 1)
        .ok (productJoin gll)
    | .choice els _ _ => do
        let gll ← genElems f g els (depth + 1)
        .ok gll.flatten
    | .option el _ _ => do
        let l ← genElem f g el (depth + 1)
        .ok ([] :: l)
    | .repetition el _ _ => do
        let l ← genElem f g el (depth + 1)
        .ok ([] :: ((List.range' 1 (g.max_repetitions - 1)).map fun n =>
              productJoin (List.replicate n l)).flatten)
    | .stringLiteralCharacter _ _ delim esc =>
        .ok ((slcCharacters delim esc).map fun entry =>
              entry.map fun ch => [ch]).flatten
termination_by structural fuel

/-- Generation of a list of elements in order (the
`(element._generate(grammar, depth + 1, ...) for element in self.elements)`
generator expressions of `Sequence.generate` / `Choice.generate`,
materialized left to right as `generate_product`'s length computation
does). -/
def genElems (fuel : Nat) (g : Grammar) (els : List Element) (depth : Nat) :
    Except Err (List (List (List Char))) :=
  match fuel with
  | 0 => .error .fuelExhausted
  | f + 1 =>
    match els with
    | [] => .ok []
    | e :: es => do
        let l ← genElem f g e depth
        let ls ← genElems f g es depth
        .ok (l :: ls)
termination_by structural fuel

end

/-- `Grammar.generate` (`grammar.py` lines 21-27): look up the start rule
(`KeyError` when absent) and run the outer generation dispatch at depth 0. -/
def Grammar.generate (fuel : Nat) (g : Grammar) (rule_name : String) :
    Except Err (List (List Char)) :=
  match rulesLookup g rule_name with
  | none => .error (.keyError rule_name)
  | some el => genElem fuel g el 0

mutual

/-- Elements with no generation override and no `StringLiteralCharacter`
anywhere (the hypotheses of the amended round-trip claim). -/
def elemOK : Element → Bool
  | .terminal _ ov _ => ov.isNone
  | .substitution _ ov _ => ov.isNone
  | .sequence els ov _ => ov.isNone && elemsOK els
  | .choice els ov _ => ov.isNone && elemsOK els
  | .option el ov _ => ov.isNone && elemOK el
  | .repetition el ov _ => ov.isNone && elemOK el
  | .stringLiteralCharacter _ _ _ _ => false

/-- `elemOK` on every element of a list. -/
def elemsOK : List Element → Bool
  | [] => true
  | e :: es => elemOK e && elemsOK es

end

/-- All rules of the grammar satisfy `elemOK`. -/
def grammarOK (g : Grammar) : Bool :=
  g.rules.all fun pr => elemOK pr.2

/-- The result list of `parse_sequence` on `m` copies of `el`, with errors
collapsed to `[]` (used only to *state* the repetition characterization; the
accompanying conjuncts assert that the underlying call really returned
`.ok`). -/
def seqOk (fuel : Nat) (g : Grammar) (el : Element) (rule : String)
    (s : List Char) (p m : Nat) : List Node :=
  match parse_sequence fuel g (List.replicate m el) rule s p with
  | .ok l => l
  | .error _ => []

/-- `c` is one of the strings the generation of `e` (at some depth, within
generation fuel below `B`) can yield. -/
def GenAt (B : Nat) (g : Grammar) (e : Element) (c : List Char) : Prop :=
  ∃ fg d gl, fg < B ∧ genElem fg g e d = .ok gl ∧ c ∈ gl

/-- The induction statement of the round-trip proof: every string `c` in
the generation candidate space of `e` (within generation fuel `B`) is
matched exactly by some candidate of any successful parse of `e`, wherever
`c` occurs as a slice of the input.  (`GenParseIH B g` is the induction
hypothesis handed to the helper lemmas of the round-trip induction.) -/
def GenParseIH (B : Nat) (g : Grammar) : Prop :=
  ∀ e c, elemOK e = true → GenAt B g e c →
    ∀ fp r (s : List Char) p pl, parseElem fp g e r s p = .ok pl →
      (s.drop p).take c.length = c → p + c.length ≤ s.length →
      ∃ nd ∈ pl, nd.start = p ∧ nd.stop = p + c.length

/-- The concrete-scenario grammar
`{'main': Sequence([Terminal('a'), Repetition(Terminal('b'))])}`. -/
def g1 : Grammar :=
  { rules := [("main", .sequence [.terminal ['a'] none none,
      .repetition (.terminal ['b'] none none) none none] none none)] }

/-- The single complete tree of parsing `"abb"` with `g1`: root spanning
`[0,3)` with the `'a'` terminal child `[0,1)`, the repetition match `[1,3)`
(holding the two `'b'` children `[1,2)` and `[2,3)` plus the backtracking
placeholder), and the trailing placeholder. -/
def c1tree : Node :=
  Node.mk "main" "abb".data 0 3
    [Node.mk "main" "abb".data 0 1 [] none,
     Node.mk "main" "abb".data 1 3
       [Node.mk "main" "abb".data 1 2 [] none,
        Node.mk "main" "abb".data 2 3 [] none,
        Node.mk "main" "abb".data 3 3 [] none] none,
     Node.mk "main" "abb".data 3 3 [] none] none

/-- A grammar with no rules at all (every rule name is undefined in it). -/
def gEmpty : Grammar := { rules := [] }

/-- A terminal with a generation override set (`Terminal('a',
generation_override='x')`). -/
def eOverride : Element := .terminal ['a'] (some "x") none

/-- A grammar whose generation recursion bound is 0, holding `eOverride`. -/
def gC6 : Grammar := { rules := [("main", eOverride)], max_recursions := 0 }

/-- A grammar with the default recursion bound 8, holding `eOverride`. -/
def gC6b : Grammar := { rules := [("main", eOverride)] }

/-- Leaf carrying the searched label, `node.py` `Node.get` scenario. -/
def c8target : Node := Node.mk "r" [] 0 0 [] (some "target")

/-- Middle node carrying the *excluded* label, holding the target. -/
def c8bad : Node := Node.mk "r" [] 0 0 [c8target] (some "bad")

/-- Top-level child with an unrelated label, holding the excluded node. -/
def c8mid : Node := Node.mk "r" [] 0 0 [c8bad] (some "a")

/-- Root of the `Node.get` exclusion scenario: root → (label `a`) →
(label `bad`, excluded) → (label `target`). -/
def c8root : Node := Node.mk "r" [] 0 0 [c8mid] none

/-- A grammar whose main rule is a bare `StringLiteralCharacter()` (default
delimiter `'"'` and escape `'\\'`), the round-trip counterexample. -/
def gSLC : Grammar :=
  { rules := [("main", .stringLiteralCharacter none none '"' '\\')] }

/-! ## General lemmas -/

theorem except_bind_ok {α β : Type} {x : Except Err α} {f : α → Except Err β}
    {b : β} : (x >>= f) = .ok b ↔ ∃ a, x = .ok a ∧ f a = .ok b := by
  cases x <;> simp [Bind.bind, Except.bind]

theorem ok_bind {α β : Type} (a : α) (f : α → Except Err β) :
    ((.ok a : Except Err α) >>= f) = f a := rfl

theorem parseElem_choice_eq (f : Nat) (g : Grammar) (els : List Element)
    (ov lab : Option String) (r : String) (s : List Char) (p : Nat) :
    parseElem (f + 1) g (.choice els ov lab) r s p =
      parse_choice f g els r s p >>= fun nodes =>
        .ok (label_node nodes lab) := rfl

theorem parse_choice_cons (f : Nat) (g : Grammar) (e : Element)
    (es : List Element) (r : String) (s : List Char) (p : Nat) :
    parse_choice (f + 1) g (e :: es) r s p =
      parseElem f g e r s p >>= fun l =>
        parse_choice f g es r s p >>= fun ls =>
          .ok (l ++ ls) := rfl

theorem parse_choice_nil (f : Nat) (g : Grammar) (r : String) (s : List Char)
    (p : Nat) : parse_choice (f + 1) g [] r s p = .ok [] := rfl

/-! ## C1: the concrete parse scenario -/

/-- C1: for the grammar
`{'main': Sequence([Terminal('a'), Repetition(Terminal('b'))])}`,
`parse_complete` on `"abb"` yields exactly one complete tree: its root spans
`[0,3)`, containing the `Terminal('a')` child spanning `[0,1)` and the two
repetition-match children spanning `[1,2)` and `[2,3)` nested inside the
repetition node spanning `[1,3)` (see `c1tree`); `parse_complete` on `"ac"`
yields zero trees. -/
theorem c1_concrete_scenario :
    Grammar.parse_complete 50 g1 "abb".data "main" = .ok [c1tree] ∧
    Grammar.parse_complete 50 g1 "ac".data "main" = .ok [] :=
  ⟨rfl, rfl⟩

/-! ## C4: Choice concatenates the alternatives' candidates -/

/-- C4: the candidates of `Choice([e1, e2]).parse` at a position are exactly
the concatenation of `e1.parse`'s candidates followed by `e2.parse`'s
candidates at that position, order preserved and without deduplication
(whatever `l1` and `l2` are — including when they share duplicate nodes). -/
theorem c4_choice_union (f : Nat) (g : Grammar) (e1 e2 : Element)
    (ov : Option String) (r : String) (s : List Char) (p : Nat)
    (l1 l2 : List Node)
    (h1 : parseElem (f + 2) g e1 r s p = .ok l1)
    (h2 : parseElem (f + 1) g e2 r s p = .ok l2) :
    parseElem (f + 4) g (.choice [e1, e2] ov none) r s p = .ok (l1 ++ l2) := by
  have h4 : parse_choice (f + 2) g [e2] r s p = .ok (l2 ++ []) := by
    show parse_choice ((f + 1) + 1) g (e2 :: []) r s p = _
    rw [parse_choice_cons, h2, ok_bind, parse_choice_nil, ok_bind]
  have hc : parse_choice (f + 3) g [e1, e2] r s p = .ok (l1 ++ (l2 ++ [])) := by
    show parse_choice ((f + 2) + 1) g (e1 :: [e2]) r s p = _
    rw [parse_choice_cons, h1, ok_bind, h4, ok_bind]
  show parseElem ((f + 3) + 1) g (.choice [e1, e2] ov none) r s p = _
  rw [parseElem_choice_eq, hc, ok_bind]
  simp [label_node, strTruthy]

/-- Witness for C4 at `e1 = e2 = Terminal('a')` on input `"a"`: both
alternatives yield the same node and the choice yields it twice. -/
theorem c4_choice_union_witness :
    parseElem 4 gEmpty
      (.choice [.terminal ['a'] none none, .terminal ['a'] none none]
        none none) "m" ['a'] 0 =
      .ok ([Node.mk "m" ['a'] 0 1 [] none] ++ [Node.mk "m" ['a'] 0 1 [] none]) :=
  c4_choice_union 0 gEmpty _ _ none "m" ['a'] 0 _ _ rfl rfl

/-! ## C6: the generation dispatch order -/

/-- C6 counterexample: the claim says a set `generation_override` yields the
literal regardless of other conditions, but with `max_recursions = 0` the
dispatch yields nothing even though the override `'x'` is set (the source
tests the depth bound *before* the override). -/
theorem c6_override_counterexample :
    genElem 5 gC6 eOverride 0 = .ok [] ∧
    genElem 5 gC6 eOverride 0 ≠ .ok [['x']] := by
  refine ⟨rfl, ?_⟩
  rw [show genElem 5 gC6 eOverride 0 = .ok [] from rfl]
  simp

/-- C6 (amended): the outer dispatch `_generate` first checks the recursion
depth: at `depth >= max_recursions` it yields nothing, even when
`generation_override` is set; below the bound, a truthy (set and non-empty)
override yields exactly that literal once; otherwise the variant's
`generate` runs. -/
theorem c6_dispatch_order (f d : Nat) (g : Grammar) (e : Element) :
    (g.max_recursions ≤ d → genElem (f + 1) g e d = .ok []) ∧
    (d < g.max_recursions → ∀ ov, e.generation_override = some ov →
      ov ≠ "" → genElem (f + 1) g e d = .ok [ov.data]) ∧
    (d < g.max_recursions → strTruthy e.generation_override = false →
      genElem (f + 1) g e d = genVariant f g e d) := by
  refine ⟨fun hle => ?_, fun hlt ov hov hne => ?_, fun hlt hfalse => ?_⟩
  · have : ¬ d < g.max_recursions := by omega
    simp [genElem, this]
  · simp [genElem, hlt, hov, hne]
  · cases hov : e.generation_override with
    | none => simp [genElem, hlt, hov]
    | some ov =>
        have : ov = "" := by
          by_contra hne
          simp [strTruthy, hov, hne] at hfalse
        subst this
        simp [genElem, hlt, hov]

/-- Witness for C6 (amended): the three dispatch branches at concrete
inputs — depth cutoff with the override set, truthy override below the
bound, and no override below the bound. -/
theorem c6_dispatch_order_witness :
    genElem 6 gC6 eOverride 0 = .ok [] ∧
    genElem 6 gC6b eOverride 0 = .ok [['x']] ∧
    genElem 6 gC6b (.terminal ['a'] none none) 0 =
      genVariant 5 gC6b (.terminal ['a'] none none) 0 :=
  ⟨(c6_dispatch_order 5 0 gC6 eOverride).1 (by decide),
   (c6_dispatch_order 5 0 gC6b eOverride).2.1 (by decide) "x" rfl (by decide),
   (c6_dispatch_order 5 0 gC6b (.terminal ['a'] none none)).2.2 (by decide)
     (by decide)⟩

/-! ## C8: label lookup and the exclusion set -/

/-- C8: `Node.get` on the tree root → (label `'a'`) → (label `'bad'`) →
(label `'target'`), searching `'target'` with exclusion set `['bad']`,
*does* return the target node that sits below the excluded `'bad'` node:
the source drops the exclusion set when it recurses (`child.get(label)`
with the default `exclude=[]`), so exclusion only applies to the root's
immediate children, contradicting the claim and the method's own docstring
("Will not traverse nodes with labels in the exclude list"). -/
theorem c8_get_descends_into_excluded :
    Node.get c8root "target" ["bad"] = [c8target] := rfl

/-! ## C9: undefined rule references -/

/-- C9: when a `Substitution` or an entry-point `parse`/`generate` call
names a rule absent from the grammar's mapping, the operation fails
immediately with the lookup error (`KeyError`), which propagates uncaught;
nothing detects the dangling name at construction time (the `Grammar`
value `g` exists with no constraint on its rule references). -/
theorem c9_undefined_rule (g : Grammar) (name rule : String) (s : List Char)
    (p f d : Nat) (ov lab : Option String)
    (h : rulesLookup g name = none) :
    Grammar.parse f g s name = .error (.keyError name) ∧
    Grammar.generate f g name = .error (.keyError name) ∧
    parseElem (f + 1) g (.substitution name ov lab) rule s p =
      .error (.keyError name) ∧
    (d < g.max_recursions →
      genElem (f + 2) g (.substitution name none lab) d =
        .error (.keyError name)) := by
  refine ⟨?_, ?_, ?_, fun hd => ?_⟩
  · simp [Grammar.parse, h]
  · simp [Grammar.generate, h]
  · simp [parseElem, h]
  · simp [genElem, genVariant, Element.generation_override, hd, h]

/-- Witness for C9: the empty grammar defines no rule `'main'`, and all four
operations surface the `KeyError`. -/
theorem c9_undefined_rule_witness :
    Grammar.parse 3 gEmpty ['a'] "main" = .error (.keyError "main") ∧
    Grammar.generate 3 gEmpty "main" = .error (.keyError "main") ∧
    parseElem 4 gEmpty (.substitution "main" none none) "r" ['a'] 0 =
      .error (.keyError "main") ∧
    genElem 5 gEmpty (.substitution "main" none none) 0 =
      .error (.keyError "main") :=
  ⟨(c9_undefined_rule gEmpty "main" "r" ['a'] 0 3 0 none none rfl).1,
   (c9_undefined_rule gEmpty "main" "r" ['a'] 0 3 0 none none rfl).2.1,
   (c9_undefined_rule gEmpty "main" "r" ['a'] 0 3 0 none none rfl).2.2.1,
   (c9_undefined_rule gEmpty "main" "r" ['a'] 0 3 0 none none rfl).2.2.2
     (by decide)⟩

/-! ## C10: StringLiteralCharacter.parse at end of input -/

/-- C10: `StringLiteralCharacter.parse` indexes `string[position]` before
anything else, so at `position >= len(string)` it raises `IndexError`
instead of yielding no candidates; `Terminal.parse`, by contrast, yields
no candidate (and raises nothing) whenever fewer than `len(literal)`
characters remain. -/
theorem c10_slc_index_error (g : Grammar) (rule : String) (s lit : List Char)
    (p f : Nat) (ov lab : Option String) (delim esc : Char) :
    (s.length ≤ p →
      parseElem (f + 1) g (.stringLiteralCharacter ov lab delim esc)
        rule s p = .error .indexError) ∧
    (s.length - p < lit.length →
      parseElem (f + 1) g (.terminal lit ov lab) rule s p = .ok []) := by
  constructor
  · intro hp
    have hnp : ¬ p < s.length := by omega
    simp [parseElem, hnp]
  · intro hl
    have hlen : ((s.drop p).take lit.length).length ≠ lit.length := by
      simp only [List.length_take, List.length_drop]
      omega
    have hne : ¬ ((s.drop p).take lit.length = lit) := fun heq => hlen (by rw [heq])
    simp [parseElem, hne]

/-- Witness for C10: on the empty input at position 0, the
string-literal-character element raises while `Terminal('a')` yields no
candidate. -/
theorem c10_slc_index_error_witness :
    parseElem 1 gEmpty (.stringLiteralCharacter none none '"' '\\')
      "m" [] 0 = .error .indexError ∧
    parseElem 1 gEmpty (.terminal ['a'] none none) "m" [] 0 = .ok [] :=
  ⟨(c10_slc_index_error gEmpty "m" [] ['a'] 0 0 none none '"' '\\').1
     (by decide),
   (c10_slc_index_error gEmpty "m" [] ['a'] 0 0 none none '"' '\\').2
     (by decide)⟩

/-! ## C7: the sampling cap of generate_product -/

theorem length_listProd {α : Type} (gens : List (List α)) :
    (listProd gens).length = prodLengths gens := by
  suffices h : (listProd gens).length = (gens.map List.length).prod by
    rw [h, List.prod_eq_foldl]; rfl
  induction gens with
  | nil => rfl
  | cons l ls ih =>
      simp only [listProd, List.length_flatMap, List.map_cons, List.prod_cons]
      have h2 : List.map
            (List.length ∘ fun x => List.map (fun xs => x :: xs) (listProd ls))
            l = List.map (fun _ => (listProd ls).length) l := by
        simp [Function.comp_def]
      rw [h2, List.map_const', List.sum_replicate, smul_eq_mul, ih]

theorem filter_enum_length_le {α : Type} (l : List α) (idx : List Nat) :
    ((l.enum.filter fun p => decide (p.1 ∈ idx)).length ≤ idx.length) := by
  set F := (l.enum.filter fun p => decide (p.1 ∈ idx)).map Prod.fst with hF
  have hlen : F.length = (l.enum.filter fun p => decide (p.1 ∈ idx)).length := by
    simp [hF]
  have hsub : F.Sublist (l.enum.map Prod.fst) :=
    List.Sublist.map _ (List.filter_sublist l.enum)
  have hnodup : F.Nodup := by
    refine hsub.nodup ?_
    rw [List.enum_map_fst]
    exact List.nodup_range _
  have hsubset : ∀ x ∈ F, x ∈ idx := by
    intro x hx
    rw [hF] at hx
    obtain ⟨p, hp, rfl⟩ := List.mem_map.mp hx
    have := (List.mem_filter.mp hp).2
    simpa using this
  have hcard : F.toFinset.card ≤ idx.toFinset.card := by
    refine Finset.card_le_card ?_
    intro x hx
    rw [List.mem_toFinset] at hx ⊢
    exact hsubset x hx
  calc (l.enum.filter fun p => decide (p.1 ∈ idx)).length
      = F.length := hlen.symm
    _ = F.toFinset.card := (List.toFinset_card_of_nodup hnodup).symm
    _ ≤ idx.toFinset.card := hcard
    _ ≤ idx.length := List.toFinset_card_le idx

/-- C7: `generate_product` yields at most `max_products` strings, and never
more than the true number of combinations (the product of the generator
lengths).  The random draw of `random.sample(range(length), min(n, length))`
is abstracted as the `indices` parameter, constrained exactly as
`random.sample` guarantees: `min n length` draws (the ≤-bounds do not even
need the distinctness or range of the drawn indices). -/
theorem c7_generate_product_cap (g : Grammar) (indices : List Nat)
    (gens : List (List (List Char)))
    (hlen : indices.length = min g.max_products (prodLengths gens)) :
    (generate_product g indices gens).length ≤ g.max_products ∧
    (generate_product g indices gens).length ≤ prodLengths gens := by
  have key : (generate_product g indices gens).length =
      ((listProd gens).enum.filter fun p => decide (p.1 ∈ indices)).length := by
    simp [generate_product, random_sample]
  constructor
  · rw [key]
    calc ((listProd gens).enum.filter fun p => decide (p.1 ∈ indices)).length
        ≤ indices.length := filter_enum_length_le _ _
      _ ≤ g.max_products := by omega
  · rw [key]
    calc ((listProd gens).enum.filter fun p => decide (p.1 ∈ indices)).length
        ≤ (listProd gens).enum.length := List.length_filter_le _ _
      _ = (listProd gens).length := List.enum_length
      _ = prodLengths gens := length_listProd gens

/-- Witness for C7: two generators of lengths 2 and 1 (true product 2),
`max_products = 8`, the sampler drew `min 8 2 = 2` indices. -/
theorem c7_generate_product_cap_witness :
    (generate_product gEmpty [0, 1] [[['a'], ['b']], [['c']]]).length ≤
      gEmpty.max_products ∧
    (generate_product gEmpty [0, 1] [[['a'], ['b']], [['c']]]).length ≤
      prodLengths [[['a'], ['b']], [['c']]] :=
  c7_generate_product_cap gEmpty [0, 1] [[['a'], ['b']], [['c']]] (by decide)

/-! ## The parse string invariant: every parsed node records the input -/

theorem mem_label_node {l : List Node} {lab : Option String} {nd : Node}
    (h : nd ∈ label_node l lab) :
    ∃ nd0 ∈ l, nd.str = nd0.str ∧ nd.start = nd0.start ∧ nd.stop = nd0.stop := by
  unfold label_node at h
  split at h
  · obtain ⟨nd0, h0, rfl⟩ := List.mem_map.mp h
    exact ⟨nd0, h0, rfl, rfl, rfl⟩
  · exact ⟨nd, h, rfl, rfl, rfl⟩

theorem label_node_mem {l : List Node} (lab : Option String) {nd : Node}
    (h : nd ∈ l) :
    ∃ nd' ∈ label_node l lab, nd'.str = nd.str ∧ nd'.start = nd.start ∧
      nd'.stop = nd.stop := by
  unfold label_node
  split
  · exact ⟨Node.mk nd.rule nd.str nd.start nd.stop [nd] lab,
      List.mem_map.mpr ⟨nd, h, rfl⟩, rfl, rfl, rfl⟩
  · exact ⟨nd, h, rfl, rfl, rfl⟩

theorem repWrap_start (r : String) (s : List Char) (lab : Option String)
    (node : Node) : (repWrap r s lab node).start = node.start := by
  unfold repWrap; split <;> rfl

theorem repWrap_stop (r : String) (s : List Char) (lab : Option String)
    (node : Node) : (repWrap r s lab node).stop = node.stop := by
  unfold repWrap; split <;> rfl

theorem repWrap_str (r : String) (s : List Char) (lab : Option String)
    (node : Node) (h : node.str = s) : (repWrap r s lab node).str = s := by
  unfold repWrap; split
  · rfl
  · exact h

theorem composeNode_str (r : String) (s : List Char) (p : Nat)
    (children : List Node) : (composeNode r s p children).str = s := by
  unfold composeNode; split <;> rfl

/-- Every node in any `.ok` result of the parsing functions stores the whole
original input string `s` in its `str` field (Python: every `Node(...)` is
constructed with the full `string`). -/
theorem parse_nodes_str (fuel : Nat) :
    (∀ g e r s p pl, parseElem fuel g e r s p = .ok pl →
      ∀ nd ∈ pl, nd.str = s) ∧
    (∀ g els r s p pl, parse_sequence fuel g els r s p = .ok pl →
      ∀ nd ∈ pl, nd.str = s) ∧
    (∀ g els r s p chs, seqChoices fuel g els r s p = .ok chs →
      ∀ ch ∈ chs, ∀ nd ∈ ch, nd.str = s) ∧
    (∀ g t r s hs chs, (∀ hn ∈ hs, Node.str hn = s) →
      goHeads fuel g t r s hs = .ok chs →
      ∀ ch ∈ chs, ∀ nd ∈ ch, nd.str = s) ∧
    (∀ g els r s p pl, parse_choice fuel g els r s p = .ok pl →
      ∀ nd ∈ pl, nd.str = s) ∧
    (∀ g el lab r s p n pl, repLoop fuel g el lab r s p n = .ok pl →
      ∀ nd ∈ pl, nd.str = s) := by
  induction fuel with
  | zero =>
      refine ⟨?_, ?_, ?_, ?_, ?_, ?_⟩ <;> intros <;>
        simp_all [parseElem, parse_sequence, seqChoices, goHeads,
          parse_choice, repLoop]
  | succ f ih =>
      obtain ⟨ihE, ihS, ihC, ihG, ihCh, ihR⟩ := ih
      refine ⟨?_, ?_, ?_, ?_, ?_, ?_⟩
      · -- parseElem
        intro g e r s p pl hok nd hnd
        cases e with
        | terminal lit ov lab =>
            simp only [parseElem] at hok
            split at hok <;> cases hok <;> simp_all [Node.str]
        | substitution name ov lab =>
            simp only [parseElem] at hok
            cases hL : rulesLookup g name with
            | none => rw [hL] at hok; cases hok
            | some el =>
                rw [hL] at hok
                rw [except_bind_ok] at hok
                obtain ⟨inner, hi, hb⟩ := hok
                cases hb
                obtain ⟨nd0, h0, hstr, _, _⟩ := mem_label_node hnd
                rw [hstr]
                exact ihE _ _ _ _ _ _ hi nd0 h0
        | sequence els ov lab =>
            simp only [parseElem] at hok
            rw [except_bind_ok] at hok
            obtain ⟨nodes, hi, hb⟩ := hok
            cases hb
            obtain ⟨nd0, h0, hstr, _, _⟩ := mem_label_node hnd
            rw [hstr]
            exact ihS _ _ _ _ _ _ hi nd0 h0
        | choice els ov lab =>
            simp only [parseElem] at hok
            rw [except_bind_ok] at hok
            obtain ⟨nodes, hi, hb⟩ := hok
            cases hb
            obtain ⟨nd0, h0, hstr, _, _⟩ := mem_label_node hnd
            rw [hstr]
            exact ihCh _ _ _ _ _ _ hi nd0 h0
        | option el ov lab =>
            simp only [parseElem] at hok
            rw [except_bind_ok] at hok
            obtain ⟨inner, hi, hb⟩ := hok
            cases hb
            rcases List.mem_cons.mp hnd with h0 | h0
            · rw [h0]; rfl
            · obtain ⟨nd0, h1, hstr, _, _⟩ := mem_label_node h0
              rw [hstr]
              exact ihE _ _ _ _ _ _ hi nd0 h1
        | repetition el ov lab =>
            simp only [parseElem] at hok
            rw [except_bind_ok] at hok
            obtain ⟨rest, hi, hb⟩ := hok
            cases hb
            rcases List.mem_cons.mp hnd with h0 | h0
            · rw [h0]; rfl
            · exact ihR _ _ _ _ _ _ _ _ hi nd h0
        | stringLiteralCharacter ov lab delim esc =>
            simp only [parseElem] at hok
            split at hok
            · split at hok
              · cases hok
                simp only [List.mem_singleton] at hnd
                subst hnd; rfl
              · split at hok
                · cases hok; cases hnd
                · cases hok
                  simp only [List.mem_singleton] at hnd
                  subst hnd; rfl
            · cases hok
      · -- parse_sequence
        intro g els r s p pl hok nd hnd
        simp only [parse_sequence] at hok
        rw [except_bind_ok] at hok
        obtain ⟨chs, hi, hb⟩ := hok
        cases hb
        obtain ⟨ch, hch, rfl⟩ := List.mem_map.mp hnd
        exact composeNode_str r s p ch
      · -- seqChoices
        intro g els r s p chs hok ch hch nd hnd
        cases els with
        | nil =>
            simp only [seqChoices] at hok
            cases hok
            simp only [List.mem_singleton] at hch
            subst hch
            simp only [List.mem_singleton] at hnd
            subst hnd
            rfl
        | cons head tail =>
            simp only [seqChoices] at hok
            rw [except_bind_ok] at hok
            obtain ⟨hs, hhs, hg⟩ := hok
            exact ihG _ _ _ _ _ _ (fun hn hmem => ihE _ _ _ _ _ _ hhs hn hmem)
              hg ch hch nd hnd
      · -- goHeads
        intro g t r s hs chs hstr hok ch hch nd hnd
        cases hs with
        | nil =>
            simp only [goHeads] at hok
            cases hok
            cases hch
        | cons hn rest =>
            simp only [goHeads] at hok
            rw [except_bind_ok] at hok
            obtain ⟨ts, hts, hok2⟩ := hok
            rw [except_bind_ok] at hok2
            obtain ⟨rs, hrs, hb⟩ := hok2
            cases hb
            rcases List.mem_append.mp hch with h0 | h0
            · obtain ⟨tc, htc, rfl⟩ := List.mem_map.mp h0
              rcases List.mem_cons.mp hnd with h1 | h1
              · rw [h1]; exact hstr hn (List.mem_cons_self _ _)
              · exact ihC _ _ _ _ _ _ hts tc htc nd h1
            · exact ihG _ _ _ _ _ _
                (fun x hx => hstr x (List.mem_cons_of_mem _ hx)) hrs ch h0 nd hnd
      · -- parse_choice
        intro g els r s p pl hok nd hnd
        cases els with
        | nil =>
            simp only [parse_choice] at hok
            cases hok
            cases hnd
        | cons e es =>
            simp only [parse_choice] at hok
            rw [except_bind_ok] at hok
            obtain ⟨l, hl, hok2⟩ := hok
            rw [except_bind_ok] at hok2
            obtain ⟨ls, hls, hb⟩ := hok2
            cases hb
            rcases List.mem_append.mp hnd with h0 | h0
            · exact ihE _ _ _ _ _ _ hl nd h0
            · exact ihCh _ _ _ _ _ _ hls nd h0
      · -- repLoop
        intro g el lab r s p n pl hok nd hnd
        simp only [repLoop] at hok
        rw [except_bind_ok] at hok
        obtain ⟨nodes, hns, hok2⟩ := hok
        split at hok2
        · cases hok2; cases hnd
        · rw [except_bind_ok] at hok2
          obtain ⟨rest, hrest, hb⟩ := hok2
          cases hb
          rcases List.mem_append.mp hnd with h0 | h0
          · obtain ⟨nd0, h1, rfl⟩ := List.mem_map.mp h0
            exact repWrap_str r s lab nd0 (ihS _ _ _ _ _ _ hns nd0 h1)
          · exact ihR _ _ _ _ _ _ _ _ hrest nd h0

/-! ## C2: the completeness filter -/

/-- C2: a node `t` produced by `Grammar.parse` appears in
`Grammar.parse_complete` exactly when its region spans all of the input:
its matched substring (`parsed_string`) is the entire input `s`.
(`is_complete` as coded compares `parsed_string` against the node's stored
`string` field; by `parse_nodes_str` that stored field is always the parse
input, so the filter is equivalent to matching the whole input.) -/
theorem c2_parse_complete_iff (fuel : Nat) (g : Grammar) (s : List Char)
    (rule : String) (l lc : List Node) (t : Node)
    (hp : Grammar.parse fuel g s rule = .ok l)
    (hpc : Grammar.parse_complete fuel g s rule = .ok lc) :
    t ∈ lc ↔ (t ∈ l ∧ t.parsed_string = s) := by
  have hstr : ∀ nd ∈ l, nd.str = s := by
    intro nd hnd
    unfold Grammar.parse at hp
    cases hL : rulesLookup g rule with
    | none => rw [hL] at hp; cases hp
    | some el =>
        rw [hL] at hp
        exact (parse_nodes_str fuel).1 _ _ _ _ _ _ hp nd hnd
  have hfc : lc = l.filter Node.is_complete := by
    unfold Grammar.parse_complete at hpc
    rw [hp] at hpc
    simp only [Except.map] at hpc
    cases hpc
    rfl
  subst hfc
  constructor
  · intro ht
    have hm := List.mem_filter.mp ht
    refine ⟨hm.1, ?_⟩
    have heq : t.str = t.parsed_string := by
      have := hm.2
      simpa [Node.is_complete] using this
    rw [← heq]
    exact hstr t hm.1
  · rintro ⟨hmem, hps⟩
    refine List.mem_filter.mpr ⟨hmem, ?_⟩
    simp only [Node.is_complete, beq_iff_eq]
    rw [hps]
    exact hstr t hmem

/-- Witness for C2 on `g1` with input `"a"`: the single produced tree is
complete and appears in `parse_complete`. -/
theorem c2_parse_complete_iff_witness :
    Node.mk "main" "a".data 0 1
        [Node.mk "main" "a".data 0 1 [] none,
         Node.mk "main" "a".data 1 1 [] none,
         Node.mk "main" "a".data 1 1 [] none] none ∈
      [Node.mk "main" "a".data 0 1
        [Node.mk "main" "a".data 0 1 [] none,
         Node.mk "main" "a".data 1 1 [] none,
         Node.mk "main" "a".data 1 1 [] none] none] ↔
    (Node.mk "main" "a".data 0 1
        [Node.mk "main" "a".data 0 1 [] none,
         Node.mk "main" "a".data 1 1 [] none,
         Node.mk "main" "a".data 1 1 [] none] none ∈
      [Node.mk "main" "a".data 0 1
        [Node.mk "main" "a".data 0 1 [] none,
         Node.mk "main" "a".data 1 1 [] none,
         Node.mk "main" "a".data 1 1 [] none] none] ∧
     (Node.mk "main" "a".data 0 1
        [Node.mk "main" "a".data 0 1 [] none,
         Node.mk "main" "a".data 1 1 [] none,
         Node.mk "main" "a".data 1 1 [] none] none).parsed_string =
       "a".data) :=
  c2_parse_complete_iff 50 g1 "a".data "main" _ _ _ rfl rfl

/-! ## C5: the repetition parse loop -/

theorem repWrap_none (r : String) (s : List Char) (node : Node) :
    repWrap r s none node = node := rfl

theorem seqOk_eq {fu : Nat} {g : Grammar} {el : Element} {r : String}
    {s : List Char} {p m : Nat} {lm : List Node}
    (h : parse_sequence fu g (List.replicate m el) r s p = .ok lm) :
    seqOk fu g el r s p m = lm := by
  unfold seqOk
  rw [h]

/-- Characterization of the `for n in count(1)` loop of `Repetition.parse`:
an `.ok` run of `repLoop` starting at count `n0 ≥ 1` determines a last
successful count `N`: every count from `n0` to `N` produced a nonempty
candidate list, count `N + 1` produced the empty list (which broke the
loop), and the output is the concatenation, in increasing count order, of
the per-count candidate lists (each wrapped by `repWrap`).  The fuel for
count `m` inside the loop is `fl - 1 - (m - n0)`. -/
theorem repLoop_spec (g : Grammar) (el : Element) (lab : Option String)
    (r : String) (s : List Char) (p : Nat) :
    ∀ (fl n0 : Nat) (out : List Node), 1 ≤ n0 →
      repLoop fl g el lab r s p n0 = .ok out →
      ∃ N, n0 ≤ N + 1 ∧
        (∀ m, n0 ≤ m → m ≤ N → ∃ lm,
          parse_sequence (fl - 1 - (m - n0)) g (List.replicate m el) r s p =
            .ok lm ∧ lm ≠ []) ∧
        parse_sequence (fl - 1 - (N + 1 - n0)) g
          (List.replicate (N + 1) el) r s p = .ok [] ∧
        out = ((List.range' n0 (N + 1 - n0)).map fun m =>
          (seqOk (fl - 1 - (m - n0)) g el r s p m).map
            (repWrap r s lab)).flatten := by
  intro fl
  induction fl with
  | zero => intro n0 out _ h; cases h
  | succ f ihf =>
      intro n0 out hn0 h
      simp only [repLoop] at h
      rw [except_bind_ok] at h
      obtain ⟨nodes, hns, h2⟩ := h
      by_cases he : nodes.isEmpty
      · rw [if_pos he] at h2
        cases h2
        have hnil : nodes = [] := List.isEmpty_iff.mp he
        subst hnil
        refine ⟨n0 - 1, by omega, ?_, ?_, ?_⟩
        · intro m hm1 hm2; omega
        · have h2 : f + 1 - 1 - (n0 - 1 + 1 - n0) = f := by omega
          rw [h2]
          have h1 : n0 - 1 + 1 = n0 := by omega
          rw [h1]
          exact hns
        · have h3 : n0 - 1 + 1 - n0 = 0 := by omega
          rw [h3]
          rfl
      · rw [if_neg he] at h2
        rw [except_bind_ok] at h2
        obtain ⟨rest, hrest, h3⟩ := h2
        cases h3
        obtain ⟨N, hn1, hcond, hfail, hout⟩ := ihf (n0 + 1) rest (by omega) hrest
        refine ⟨N, by omega, ?_, ?_, ?_⟩
        · intro m hm1 hm2
          rcases Nat.eq_or_lt_of_le hm1 with heq | hlt
          · refine ⟨nodes, ?_, List.isEmpty_eq_false.mp (by simpa using he)⟩
            have hf : f + 1 - 1 - (m - n0) = f := by omega
            rw [hf, ← heq]
            exact hns
          · obtain ⟨lm, hlm, hlmne⟩ := hcond m (by omega) hm2
            refine ⟨lm, ?_, hlmne⟩
            have hf : f + 1 - 1 - (m - n0) = f - 1 - (m - (n0 + 1)) := by omega
            rw [hf]
            exact hlm
        · have hf : f + 1 - 1 - (N + 1 - n0) = f - 1 - (N + 1 - (n0 + 1)) := by
            omega
          rw [hf]
          exact hfail
        · have hNn : N + 1 - n0 = (N - n0) + 1 := by omega
          rw [hNn, List.range'_succ n0 (N - n0) 1, List.map_cons,
            List.flatten_cons]
          have hf0 : f + 1 - 1 - (n0 - n0) = f := by omega
          have hhead : seqOk (f + 1 - 1 - (n0 - n0)) g el r s p n0 = nodes := by
            rw [hf0]
            exact seqOk_eq hns
          rw [hhead, hout]
          have hrw : N + 1 - (n0 + 1) = N - n0 := by omega
          rw [hrw]
          congr 1
          refine congrArg List.flatten ?_
          refine List.map_congr_left ?_
          intro m hm
          rw [List.mem_range'] at hm
          obtain ⟨i, hi, rfl⟩ := hm
          have hfu : f - 1 - (n0 + 1 + 1 * i - (n0 + 1)) =
              f + 1 - 1 - (n0 + 1 + 1 * i - n0) := by omega
          rw [hfu]

/-- C5: `Repetition(e).parse` yields the zero-width match at `p` as its
first candidate; then, for increasing counts `n = 1, 2, …` up to some `N`,
it yields every candidate of parsing `n` copies of `e` in sequence starting
at `p` (the backtracking sequence matcher `parse_sequence` applied to
`n` replicas), in increasing-count order; counts `1 .. N` each produced at
least one candidate and count `N + 1` produced none, at which point the
loop stopped — no larger count is tried.  (`F - m` is the fuel the loop
had left at count `m`; `seqOk` names the count-`m` candidate list.) -/
theorem c5_repetition_semantics (F : Nat) (g : Grammar) (el : Element)
    (ov : Option String) (r : String) (s : List Char) (p : Nat)
    (l : List Node)
    (h : parseElem (F + 1) g (.repetition el ov none) r s p = .ok l) :
    ∃ N,
      l = Node.mk r s p p [] none ::
        ((List.range' 1 N).map fun m => seqOk (F - m) g el r s p m).flatten ∧
      (∀ m, 1 ≤ m → m ≤ N →
        parse_sequence (F - m) g (List.replicate m el) r s p =
          .ok (seqOk (F - m) g el r s p m) ∧
        seqOk (F - m) g el r s p m ≠ []) ∧
      parse_sequence (F - (N + 1)) g (List.replicate (N + 1) el) r s p =
        .ok [] := by
  simp only [parseElem] at h
  rw [except_bind_ok] at h
  obtain ⟨rest, hrest, hb⟩ := h
  cases hb
  obtain ⟨N, _, hcond, hfail, hout⟩ :=
    repLoop_spec g el none r s p F 1 rest (le_refl 1) hrest
  refine ⟨N, ?_, ?_, ?_⟩
  · have h11 : N + 1 - 1 = N := by omega
    rw [h11] at hout
    rw [hout]
    congr 1
    refine congrArg List.flatten ?_
    refine List.map_congr_left ?_
    intro m hm
    rw [List.mem_range'] at hm
    obtain ⟨i, hi, rfl⟩ := hm
    have hfu : F - 1 - (1 + 1 * i - 1) = F - (1 + 1 * i) := by omega
    rw [hfu]
    have hid : repWrap r s none = id := funext fun nd => repWrap_none r s nd
    rw [hid, List.map_id]
  · intro m hm1 hm2
    obtain ⟨lm, hlm, hlmne⟩ := hcond m hm1 hm2
    have hfu : F - 1 - (m - 1) = F - m := by omega
    rw [hfu] at hlm
    rw [seqOk_eq hlm]
    exact ⟨hlm, hlmne⟩
  · have hfu : F - 1 - (N + 1 - 1) = F - (N + 1) := by omega
    rw [hfu] at hfail
    exact hfail

/-- Witness for C5: `Repetition(Terminal('b'))` on input `"bb"` at
position 0: the zero-width match comes first, counts 1 and 2 are nonempty,
count 3 yields nothing. -/
theorem c5_repetition_semantics_witness :
    ∃ N,
      [Node.mk "m" "bb".data 0 0 [] none,
       Node.mk "m" "bb".data 0 1
         [Node.mk "m" "bb".data 0 1 [] none,
          Node.mk "m" "bb".data 1 1 [] none] none,
       Node.mk "m" "bb".data 0 2
         [Node.mk "m" "bb".data 0 1 [] none,
          Node.mk "m" "bb".data 1 2 [] none,
          Node.mk "m" "bb".data 2 2 [] none] none] =
        Node.mk "m" "bb".data 0 0 [] none ::
          ((List.range' 1 N).map fun m =>
            seqOk (30 - m) gEmpty (.terminal ['b'] none none) "m" "bb".data
              0 m).flatten ∧
      (∀ m, 1 ≤ m → m ≤ N →
        parse_sequence (30 - m) gEmpty
            (List.replicate m (.terminal ['b'] none none)) "m" "bb".data 0 =
          .ok (seqOk (30 - m) gEmpty (.terminal ['b'] none none) "m"
            "bb".data 0 m) ∧
        seqOk (30 - m) gEmpty (.terminal ['b'] none none) "m" "bb".data 0 m ≠
          []) ∧
      parse_sequence (30 - (N + 1)) gEmpty
          (List.replicate (N + 1) (.terminal ['b'] none none)) "m"
          "bb".data 0 = .ok [] :=
  c5_repetition_semantics 30 gEmpty (.terminal ['b'] none none) none "m"
    "bb".data 0 _ rfl

/-! ## C3: round-trip lemmas -/

theorem elemOK_override {e : Element} (h : elemOK e = true) :
    e.generation_override = none := by
  cases e <;> simp_all [elemOK, Element.generation_override, Option.isNone_iff_eq_none, Bool.and_eq_true]

theorem elemsOK_mem {els : List Element} (h : elemsOK els = true) :
    ∀ e ∈ els, elemOK e = true := by
  induction els with
  | nil => intro e he; cases he
  | cons e0 es ih =>
      intro e he
      simp only [elemsOK, Bool.and_eq_true] at h
      rcases List.mem_cons.mp he with rfl | hm
      · exact h.1
      · exact ih h.2 e hm

theorem lookup_elemOK {g : Grammar} {name : String} {el : Element}
    (hg : grammarOK g = true) (hL : rulesLookup g name = some el) :
    elemOK el = true := by
  unfold rulesLookup at hL
  cases hf : g.rules.find? fun pr => pr.1 == name with
  | none => rw [hf] at hL; cases hL
  | some pr =>
      rw [hf] at hL
      cases hL
      have hmem := List.mem_of_find?_eq_some hf
      exact (List.all_eq_true.mp hg) pr hmem

theorem genElems_ok {f2 : Nat} {g : Grammar} {d : Nat} :
    ∀ {els : List Element} {gll : List (List (List Char))},
      genElems f2 g els d = .ok gll →
      List.Forall₂ (fun e gle => ∃ f' < f2, genElem f' g e d = .ok gle)
        els gll := by
  induction f2 with
  | zero => intro els gll h; cases h
  | succ f ih =>
      intro els gll h
      cases els with
      | nil =>
          simp only [genElems] at h
          cases h
          exact List.Forall₂.nil
      | cons e es =>
          simp only [genElems] at h
          rw [except_bind_ok] at h
          obtain ⟨l, hl, h2⟩ := h
          rw [except_bind_ok] at h2
          obtain ⟨ls, hls, hb⟩ := h2
          cases hb
          refine List.Forall₂.cons ⟨f, Nat.lt_succ_self f, hl⟩ ?_
          refine (ih hls).imp ?_
          rintro e' gle' ⟨f', hf', hgen⟩
          exact ⟨f', Nat.lt_succ_of_lt hf', hgen⟩

theorem mem_listProd {α : Type} :
    ∀ {gll : List (List α)} {cs : List α},
      cs ∈ listProd gll ↔ List.Forall₂ (· ∈ ·) cs gll := by
  intro gll
  induction gll with
  | nil =>
      intro cs
      simp only [listProd, List.mem_singleton]
      constructor
      · rintro rfl; exact List.Forall₂.nil
      · intro h; cases h; rfl
  | cons l ls ih =>
      intro cs
      simp only [listProd, List.mem_flatMap, List.mem_map]
      constructor
      · rintro ⟨x, hx, xs, hxs, rfl⟩
        exact List.Forall₂.cons hx (ih.mp hxs)
      · intro h
        cases h with
        | cons hx hxs => exact ⟨_, hx, _, ih.mpr hxs, rfl⟩

theorem mem_productJoin {gll : List (List (List Char))} {c : List Char}
    (h : c ∈ productJoin gll) :
    ∃ cs, List.Forall₂ (· ∈ ·) cs gll ∧ c = cs.flatten := by
  unfold productJoin at h
  obtain ⟨cs, hcs, rfl⟩ := List.mem_map.mp h
  exact ⟨cs, mem_listProd.mp hcs, rfl⟩

theorem sliceSplit (s : List Char) (p : Nat) (a b : List Char)
    (hsl : (s.drop p).take (a ++ b).length = a ++ b)
    (hle : p + (a ++ b).length ≤ s.length) :
    (s.drop p).take a.length = a ∧ p + a.length ≤ s.length ∧
    (s.drop (p + a.length)).take b.length = b ∧
    p + a.length + b.length ≤ s.length := by
  rw [List.length_append] at hsl hle
  rw [List.take_add] at hsl
  have hlen1 : ((s.drop p).take a.length).length = a.length := by
    simp only [List.length_take, List.length_drop]
    omega
  obtain ⟨ha, hb⟩ := List.append_inj hsl hlen1
  rw [List.drop_drop] at hb
  exact ⟨ha, by omega, hb, by omega⟩

theorem forall2_replicate_right {α β : Type} {R : α → β → Prop} :
    ∀ {cs : List α} {n : Nat} {b : β},
      List.Forall₂ R cs (List.replicate n b) →
      cs.length = n ∧ ∀ c ∈ cs, R c b := by
  intro cs
  induction cs with
  | nil =>
      intro n b h
      cases n with
      | zero => exact ⟨rfl, by intro c hc; cases hc⟩
      | succ k => cases h
  | cons c cs' ih =>
      intro n b h
      cases n with
      | zero => cases h
      | succ k =>
          rw [List.replicate_succ] at h
          cases h with
          | cons h1 h2 =>
              obtain ⟨hlen, hall⟩ := ih h2
              refine ⟨by simp [hlen], ?_⟩
              intro x hx
              rcases List.mem_cons.mp hx with rfl | hm
              · exact h1
              · exact hall x hm

theorem forall2_replicate_left {α β : Type} {Q : α → β → Prop} {el : α} :
    ∀ {cs' : List β}, (∀ ci ∈ cs', Q el ci) →
      List.Forall₂ Q (List.replicate cs'.length el) cs' := by
  intro cs'
  induction cs' with
  | nil => intro _; exact List.Forall₂.nil
  | cons c cs ih =>
      intro h
      rw [List.length_cons, List.replicate_succ]
      exact List.Forall₂.cons (h c (List.mem_cons_self c cs))
        (ih fun ci hci => h ci (List.mem_cons_of_mem c hci))

theorem goHeads_mem :
    ∀ (fgo : Nat) (g : Grammar) (t : List Element) (r : String)
      (s : List Char) (hs : List Node) (chs : List (List Node)),
      goHeads fgo g t r s hs = .ok chs →
      ∀ hn ∈ hs, ∃ fsc2 ts, seqChoices fsc2 g t r s hn.stop = .ok ts ∧
        ∀ tc ∈ ts, (hn :: tc) ∈ chs := by
  intro fgo
  induction fgo with
  | zero => intro g t r s hs chs h; cases h
  | succ f ih =>
      intro g t r s hs chs h hn hmem
      cases hs with
      | nil => cases hmem
      | cons h0 rest =>
          simp only [goHeads] at h
          rw [except_bind_ok] at h
          obtain ⟨ts0, hts0, h2⟩ := h
          rw [except_bind_ok] at h2
          obtain ⟨rs, hrs, hb⟩ := h2
          cases hb
          rcases List.mem_cons.mp hmem with rfl | hm
          · refine ⟨f, ts0, hts0, ?_⟩
            intro tc htc
            exact List.mem_append_left _ (List.mem_map.mpr ⟨tc, htc, rfl⟩)
          · obtain ⟨fsc2, ts, h1, h2⟩ := ih g t r s rest rs hrs hn hm
            refine ⟨fsc2, ts, h1, ?_⟩
            intro tc htc
            exact List.mem_append_right _ (h2 tc htc)

theorem repLoop_reach (σ : Nat → Nat) (g : Grammar) (el : Element)
    (lab : Option String) (r : String) (s : List Char) (p : Nat) :
    ∀ (fl n0 : Nat) (out : List Node),
      repLoop fl g el lab r s p n0 = .ok out →
      ∀ N, n0 ≤ N →
      (∀ m, n0 ≤ m → m ≤ N → ∀ fps res,
        parse_sequence fps g (List.replicate m el) r s p = .ok res →
        ∃ nd ∈ res, nd.start = p ∧ nd.stop = σ m) →
      ∃ nd ∈ out, nd.start = p ∧ nd.stop = σ N := by
  intro fl
  induction fl with
  | zero => intro n0 out h; cases h
  | succ f ih =>
      intro n0 out h N hN H
      simp only [repLoop] at h
      rw [except_bind_ok] at h
      obtain ⟨nodes, hns, h2⟩ := h
      obtain ⟨nd0, hnd0, hst0, hsp0⟩ :=
        H n0 (le_refl n0) hN f nodes hns
      have he : nodes.isEmpty = false := by
        rw [List.isEmpty_eq_false]
        intro hnil
        rw [hnil] at hnd0
        cases hnd0
      rw [he] at h2
      simp only [Bool.false_eq_true, if_false] at h2
      rw [except_bind_ok] at h2
      obtain ⟨rest, hrest, hb⟩ := h2
      cases hb
      rcases Nat.eq_or_lt_of_le hN with rfl | hlt
      · refine ⟨repWrap r s lab nd0, ?_, ?_, ?_⟩
        · exact List.mem_append_left _ (List.mem_map.mpr ⟨nd0, hnd0, rfl⟩)
        · rw [repWrap_start]; exact hst0
        · rw [repWrap_stop]; exact hsp0
      · obtain ⟨nd, hnd, hst, hsp⟩ := ih (n0 + 1) rest hrest N hlt
          (fun m hm1 hm2 => H m (by omega) hm2)
        exact ⟨nd, List.mem_append_right _ hnd, hst, hsp⟩

theorem seqChoices_complete (g : Grammar) (B : Nat) (IH : GenParseIH B g) :
    ∀ {els : List Element} {cs : List (List Char)},
      List.Forall₂ (fun e ci => elemOK e = true ∧ GenAt B g e ci) els cs →
      ∀ fsc r (s : List Char) p chs, seqChoices fsc g els r s p = .ok chs →
      (s.drop p).take cs.flatten.length = cs.flatten →
      p + cs.flatten.length ≤ s.length →
      ∃ ch c0 rest2, ch ∈ chs ∧ ch = c0 :: rest2 ∧ c0.start = p ∧
        (rest2.getLastD c0).stop = p + cs.flatten.length := by
  intro els cs hF
  induction hF with
  | nil =>
      intro fsc r s p chs hok _ _
      cases fsc with
      | zero => cases hok
      | succ f =>
          simp only [seqChoices] at hok
          cases hok
          refine ⟨[Node.mk r s p p [] none], Node.mk r s p p [] none, [],
            List.mem_singleton_self _, rfl, rfl, ?_⟩
          simp [List.getLastD, Node.stop]
  | @cons e ci els' cs' hpair hFt ihtail =>
      intro fsc r s p chs hok hsl hle
      cases fsc with
      | zero => cases hok
      | succ f =>
          simp only [seqChoices] at hok
          rw [except_bind_ok] at hok
          obtain ⟨hs, hhs, hgo⟩ := hok
          rw [List.flatten_cons] at hsl hle
          obtain ⟨hsl1, hle1, hsl2, hle2⟩ :=
            sliceSplit s p ci cs'.flatten hsl hle
          obtain ⟨hn, hnmem, hnstart, hnstop⟩ :=
            IH e ci hpair.1 hpair.2 f r s p hs hhs hsl1 hle1
          obtain ⟨fsc2, ts, hts, hmemf⟩ :=
            goHeads_mem f g els' r s hs chs hgo hn hnmem
          rw [hnstop] at hts
          obtain ⟨ch', c0', rest2', hch'mem, hch'eq, hc0start, hlast⟩ :=
            ihtail fsc2 r s (p + ci.length) ts hts hsl2 hle2
          subst hch'eq
          refine ⟨hn :: (c0' :: rest2'), hn, c0' :: rest2',
            hmemf _ hch'mem, rfl, hnstart, ?_⟩
          rw [List.getLastD_cons, hlast, List.flatten_cons,
            List.length_append]
          omega

theorem parse_sequence_complete (g : Grammar) (B : Nat) (IH : GenParseIH B g)
    {els : List Element} {cs : List (List Char)}
    (hF : List.Forall₂ (fun e ci => elemOK e = true ∧ GenAt B g e ci) els cs) :
    ∀ fps r (s : List Char) p res, parse_sequence fps g els r s p = .ok res →
      (s.drop p).take cs.flatten.length = cs.flatten →
      p + cs.flatten.length ≤ s.length →
      ∃ nd ∈ res, nd.start = p ∧ nd.stop = p + cs.flatten.length := by
  intro fps r s p res hok hsl hle
  cases fps with
  | zero => cases hok
  | succ f =>
      simp only [parse_sequence] at hok
      rw [except_bind_ok] at hok
      obtain ⟨chs, hch, hb⟩ := hok
      cases hb
      obtain ⟨ch, c0, rest2, hchmem, rfl, hc0, hlast⟩ :=
        seqChoices_complete g B IH hF f r s p chs hch hsl hle
      refine ⟨composeNode r s p (c0 :: rest2),
        List.mem_map.mpr ⟨_, hchmem, rfl⟩, ?_, ?_⟩
      · simp only [composeNode, Node.start]
        exact hc0
      · simp only [composeNode, Node.stop]
        exact hlast

theorem parse_choice_complete (g : Grammar) (B : Nat) (IH : GenParseIH B g) :
    ∀ {els : List Element} {gll : List (List (List Char))} {c : List Char},
      List.Forall₂ (fun e gle => elemOK e = true ∧
        ∃ f' < B, ∃ d, genElem f' g e d = .ok gle) els gll →
      c ∈ gll.flatten →
      ∀ fpc r (s : List Char) p out, parse_choice fpc g els r s p = .ok out →
      (s.drop p).take c.length = c → p + c.length ≤ s.length →
      ∃ nd ∈ out, nd.start = p ∧ nd.stop = p + c.length := by
  intro els gll c hF
  induction hF with
  | nil => intro hc; simp at hc
  | @cons e gle els' gll' hpair hFt ihtail =>
      intro hc fpc r s p out hok hsl hle
      cases fpc with
      | zero => cases hok
      | succ f =>
          simp only [parse_choice] at hok
          rw [except_bind_ok] at hok
          obtain ⟨l1, hl1, h2⟩ := hok
          rw [except_bind_ok] at h2
          obtain ⟨l2, hl2, hb⟩ := h2
          cases hb
          rw [List.flatten_cons] at hc
          rcases List.mem_append.mp hc with hcl | hcr
          · obtain ⟨f', hf', d, hgen⟩ := hpair.2
            obtain ⟨nd, hnd, hst, hsp⟩ :=
              IH e c hpair.1 ⟨f', d, gle, hf', hgen, hcl⟩ f r s p l1 hl1
                hsl hle
            exact ⟨nd, List.mem_append_left _ hnd, hst, hsp⟩
          · obtain ⟨nd, hnd, hst, hsp⟩ :=
              ihtail hcr f r s p l2 hl2 hsl hle
            exact ⟨nd, List.mem_append_right _ hnd, hst, hsp⟩

theorem forall2_pair {g : Grammar} {B f2 d : Nat} (hf2 : f2 < B) :
    ∀ {els : List Element} {gll : List (List (List Char))}
      {cs : List (List Char)},
      List.Forall₂ (fun e gle => ∃ f' < f2, genElem f' g e d = .ok gle)
        els gll →
      List.Forall₂ (· ∈ ·) cs gll →
      (∀ e ∈ els, elemOK e = true) →
      List.Forall₂ (fun e ci => elemOK e = true ∧ GenAt B g e ci) els cs := by
  intro els gll cs hF
  induction hF generalizing cs with
  | nil =>
      intro hM _
      cases hM
      exact List.Forall₂.nil
  | @cons e gle els' gll' hp hFt ih =>
      intro hM hOK
      cases hM with
      | cons hc hM' =>
          obtain ⟨f', hf', hg'⟩ := hp
          refine List.Forall₂.cons
            ⟨hOK e (List.mem_cons_self _ _), f', d, gle, by omega, hg', hc⟩ ?_
          exact ih hM' fun x hx => hOK x (List.mem_cons_of_mem _ hx)

theorem forall2_choice {g : Grammar} {B f2 d : Nat} (hf2 : f2 < B) :
    ∀ {els : List Element} {gll : List (List (List Char))},
      List.Forall₂ (fun e gle => ∃ f' < f2, genElem f' g e d = .ok gle)
        els gll →
      (∀ e ∈ els, elemOK e = true) →
      List.Forall₂ (fun e gle => elemOK e = true ∧
        ∃ f' < B, ∃ d', genElem f' g e d' = .ok gle) els gll := by
  intro els gll hF
  induction hF with
  | nil => intro _; exact List.Forall₂.nil
  | @cons e gle els' gll' hp hFt ih =>
      intro hOK
      obtain ⟨f', hf', hg'⟩ := hp
      refine List.Forall₂.cons
        ⟨hOK e (List.mem_cons_self _ _), f', by omega, d, hg'⟩ ?_
      exact ih fun x hx => hOK x (List.mem_cons_of_mem _ hx)

/-- The round-trip induction: for a grammar with no generation overrides and
no `StringLiteralCharacter` elements, every string `c` in the generation
candidate space of an element `e` is matched exactly by some candidate of
any successful parse of `e` at any position where `c` occurs as a slice of
the input. -/
theorem genParse (g : Grammar) (hg : grammarOK g = true) :
    ∀ B, GenParseIH B g := by
  intro B
  induction B using Nat.strong_induction_on with
  | _ B IHstrong =>
      intro e c hok hgen fp r s p pl hp hsl hle
      obtain ⟨fg, d, gl, hfgB, hgeq, hcgl⟩ := hgen
      cases fg with
      | zero => cases hgeq
      | succ fg' =>
          simp only [genElem] at hgeq
          by_cases hd : d < g.max_recursions
          · rw [if_pos hd, elemOK_override hok] at hgeq
            have hgv : genVariant fg' g e d = .ok gl := hgeq
            cases fg' with
            | zero => cases hgv
            | succ f2 =>
                have hIH : GenParseIH (f2 + 1 + 1) g := IHstrong _ hfgB
                cases e with
                | terminal lit ov lab =>
                    simp only [genVariant] at hgv
                    cases hgv
                    rw [List.mem_singleton] at hcgl
                    subst hcgl
                    cases fp with
                    | zero => cases hp
                    | succ fp1 =>
                        simp only [parseElem] at hp
                        rw [if_pos hsl] at hp
                        cases hp
                        exact ⟨_, List.mem_singleton_self _, rfl, rfl⟩
                | substitution name ov lab =>
                    simp only [genVariant] at hgv
                    cases hL : rulesLookup g name with
                    | none => rw [hL] at hgv; cases hgv
                    | some el =>
                        rw [hL] at hgv
                        cases fp with
                        | zero => cases hp
                        | succ fp1 =>
                            simp only [parseElem] at hp
                            rw [hL] at hp
                            rw [except_bind_ok] at hp
                            obtain ⟨inner, hi, hb⟩ := hp
                            cases hb
                            obtain ⟨nd, hnd, hst, hsp⟩ :=
                              hIH el c (lookup_elemOK hg hL)
                                ⟨f2, d, gl, by omega, hgv, hcgl⟩
                                fp1 name s p inner hi hsl hle
                            obtain ⟨nd', hnd', _, hst', hsp'⟩ :=
                              label_node_mem lab hnd
                            exact ⟨nd', hnd', by rw [hst', hst],
                              by rw [hsp', hsp]⟩
                | sequence els ov lab =>
                    simp only [genVariant] at hgv
                    rw [except_bind_ok] at hgv
                    obtain ⟨gll, hgll, hb⟩ := hgv
                    cases hb
                    obtain ⟨cs, hFmem, rfl⟩ := mem_productJoin hcgl
                    have helsOK : elemsOK els = true := by
                      simp only [elemOK, Bool.and_eq_true] at hok
                      exact hok.2
                    have hpairF : List.Forall₂
                        (fun e' ci => elemOK e' = true ∧
                          GenAt (f2 + 1 + 1) g e' ci) els cs :=
                      forall2_pair (by omega) (genElems_ok hgll) hFmem
                        (elemsOK_mem helsOK)
                    cases fp with
                    | zero => cases hp
                    | succ fp1 =>
                        simp only [parseElem] at hp
                        rw [except_bind_ok] at hp
                        obtain ⟨nodes, hns, hb⟩ := hp
                        cases hb
                        obtain ⟨nd, hnd, hst, hsp⟩ :=
                          parse_sequence_complete g (f2 + 1 + 1) hIH hpairF
                            fp1 r s p nodes hns hsl hle
                        obtain ⟨nd', hnd', _, hst', hsp'⟩ :=
                          label_node_mem lab hnd
                        exact ⟨nd', hnd', by rw [hst', hst],
                          by rw [hsp', hsp]⟩
                | choice els ov lab =>
                    simp only [genVariant] at hgv
                    rw [except_bind_ok] at hgv
                    obtain ⟨gll, hgll, hb⟩ := hgv
                    cases hb
                    have helsOK : elemsOK els = true := by
                      simp only [elemOK, Bool.and_eq_true] at hok
                      exact hok.2
                    have hFch : List.Forall₂
                        (fun e' gle => elemOK e' = true ∧
                          ∃ f' < f2 + 1 + 1, ∃ d',
                            genElem f' g e' d' = .ok gle) els gll :=
                      forall2_choice (by omega) (genElems_ok hgll)
                        (elemsOK_mem helsOK)
                    cases fp with
                    | zero => cases hp
                    | succ fp1 =>
                        simp only [parseElem] at hp
                        rw [except_bind_ok] at hp
                        obtain ⟨nodes, hns, hb⟩ := hp
                        cases hb
                        obtain ⟨nd, hnd, hst, hsp⟩ :=
                          parse_choice_complete g (f2 + 1 + 1) hIH hFch hcgl
                            fp1 r s p nodes hns hsl hle
                        obtain ⟨nd', hnd', _, hst', hsp'⟩ :=
                          label_node_mem lab hnd
                        exact ⟨nd', hnd', by rw [hst', hst],
                          by rw [hsp', hsp]⟩
                | option el ov lab =>
                    simp only [genVariant] at hgv
                    rw [except_bind_ok] at hgv
                    obtain ⟨lin, hlin, hb⟩ := hgv
                    cases hb
                    have helOK : elemOK el = true := by
                      simp only [elemOK, Bool.and_eq_true] at hok
                      exact hok.2
                    cases fp with
                    | zero => cases hp
                    | succ fp1 =>
                        simp only [parseElem] at hp
                        rw [except_bind_ok] at hp
                        obtain ⟨inner, hi, hb⟩ := hp
                        cases hb
                        rcases List.mem_cons.mp hcgl with rfl | hm
                        · refine ⟨_, List.mem_cons_self _ _, rfl, ?_⟩
                          simp [Node.stop]
                        · obtain ⟨nd, hnd, hst, hsp⟩ :=
                            hIH el c helOK
                              ⟨f2, d + 1, lin, by omega, hlin, hm⟩
                              fp1 r s p inner hi hsl hle
                          obtain ⟨nd', hnd', _, hst', hsp'⟩ :=
                            label_node_mem lab hnd
                          exact ⟨nd', List.mem_cons_of_mem _ hnd',
                            by rw [hst', hst], by rw [hsp', hsp]⟩
                | repetition el ov lab =>
                    simp only [genVariant] at hgv
                    rw [except_bind_ok] at hgv
                    obtain ⟨lin, hlin, hb⟩ := hgv
                    cases hb
                    have helOK : elemOK el = true := by
                      simp only [elemOK, Bool.and_eq_true] at hok
                      exact hok.2
                    cases fp with
                    | zero => cases hp
                    | succ fp1 =>
                        simp only [parseElem] at hp
                        rw [except_bind_ok] at hp
                        obtain ⟨rest, hrest, hb⟩ := hp
                        cases hb
                        rcases List.mem_cons.mp hcgl with rfl | hm
                        · refine ⟨_, List.mem_cons_self _ _, rfl, ?_⟩
                          simp [Node.stop]
                        · rw [List.mem_flatten] at hm
                          obtain ⟨block, hblock, hcb⟩ := hm
                          rw [List.mem_map] at hblock
                          obtain ⟨n, hn, rfl⟩ := hblock
                          obtain ⟨cs, hFmem, rfl⟩ := mem_productJoin hcb
                          obtain ⟨hcslen, hcsall⟩ :=
                            forall2_replicate_right hFmem
                          have h1n : 1 ≤ n := by
                            rw [List.mem_range'] at hn
                            obtain ⟨i, _, rfl⟩ := hn
                            omega
                          have H : ∀ m, 1 ≤ m → m ≤ n → ∀ fps res,
                              parse_sequence fps g (List.replicate m el)
                                r s p = .ok res →
                              ∃ nd ∈ res, nd.start = p ∧
                                nd.stop = p + ((cs.take m).flatten).length := by
                            intro m hm1 hm2 fps res hres
                            have hlenm : (cs.take m).length = m := by
                              rw [List.length_take]
                              omega
                            have hpairm : List.Forall₂
                                (fun e' ci => elemOK e' = true ∧
                                  GenAt (f2 + 1 + 1) g e' ci)
                                (List.replicate m el) (cs.take m) := by
                              have h0 : List.Forall₂
                                  (fun e' ci => elemOK e' = true ∧
                                    GenAt (f2 + 1 + 1) g e' ci)
                                  (List.replicate (cs.take m).length el)
                                  (cs.take m) :=
                                forall2_replicate_left fun ci hci =>
                                  ⟨helOK, f2, d + 1, lin, by omega, hlin,
                                    hcsall ci (List.mem_of_mem_take hci)⟩
                              rw [hlenm] at h0
                              exact h0
                            have hsplit : cs.flatten =
                                (cs.take m).flatten ++ (cs.drop m).flatten := by
                              rw [← List.flatten_append,
                                List.take_append_drop]
                            have hsl' := hsl
                            have hle' := hle
                            rw [hsplit] at hsl' hle'
                            obtain ⟨hsl1, hle1, _, _⟩ :=
                              sliceSplit s p _ _ hsl' hle'
                            exact parse_sequence_complete g (f2 + 1 + 1) hIH
                              hpairm fps r s p res hres hsl1 hle1
                          obtain ⟨nd, hnd, hst, hsp⟩ :=
                            repLoop_reach
                              (fun m => p + ((cs.take m).flatten).length)
                              g el lab r s p fp1 1 rest hrest n h1n H
                          refine ⟨nd, List.mem_cons_of_mem _ hnd, hst, ?_⟩
                          have htk : cs.take n = cs := by
                            rw [← hcslen]
                            exact List.take_length cs
                          rw [hsp]
                          show p + ((cs.take n).flatten).length =
                            p + cs.flatten.length
                          rw [htk]
                | stringLiteralCharacter ov lab delim esc =>
                    simp [elemOK] at hok
          · rw [if_neg hd] at hgeq
            cases hgeq
            cases hcgl

/-- C3 counterexample: for the grammar `{'main': StringLiteralCharacter()}`
(no generation overrides anywhere), `'"'` is one of the strings
`Grammar.generate('main')` can yield — `StringLiteralCharacter.generate`
returns `random.choice(characters)`, a plain *string* (e.g. the
escaped-delimiter entry `'\\"'`), which the consumer of the generator then
iterates character by character, yielding `'"'` — yet
`parse_complete('"', 'main')` yields zero trees (the bare delimiter matches
nothing), so the round-trip claim fails as stated. -/
theorem c3_roundtrip_counterexample :
    ['"'] ∈ ((Grammar.generate 10 gSLC "main").toOption.getD []) ∧
    Grammar.parse_complete 10 gSLC ['"'] "main" = .ok [] :=
  ⟨by decide, rfl⟩

/-- C3 (amended): for every grammar with no generation overrides and no
`StringLiteralCharacter` elements (`grammarOK`), every string `s` in the
generation candidate space of a rule (the full space of which any random
run's output is a subset) is accepted by `parse_complete`: whenever parsing
terminates, it yields at least one tree, and that tree's matched substring
equals `s` exactly. -/
theorem c3_roundtrip_amended (g : Grammar) (rule : String) (fg : Nat)
    (gl : List (List Char)) (s : List Char) (fp : Nat) (out : List Node)
    (hg : grammarOK g = true)
    (hgen : Grammar.generate fg g rule = .ok gl) (hs : s ∈ gl)
    (hpc : Grammar.parse_complete fp g s rule = .ok out) :
    ∃ t ∈ out, t.parsed_string = s := by
  unfold Grammar.generate at hgen
  cases hL : rulesLookup g rule with
  | none => rw [hL] at hgen; cases hgen
  | some e0 =>
      rw [hL] at hgen
      unfold Grammar.parse_complete at hpc
      cases hP : Grammar.parse fp g s rule with
      | error err => rw [hP] at hpc; cases hpc
      | ok l =>
          rw [hP] at hpc
          simp only [Except.map] at hpc
          cases hpc
          have hP' : parseElem fp g e0 rule s 0 = .ok l := by
            unfold Grammar.parse at hP
            rw [hL] at hP
            exact hP
          obtain ⟨nd, hnd, hst, hsp⟩ :=
            genParse g hg (fg + 1) e0 s (lookup_elemOK hg hL)
              ⟨fg, 0, gl, Nat.lt_succ_self fg, hgen, hs⟩
              fp rule s 0 l hP' (by simp) (by omega)
          have hstr : nd.str = s :=
            (parse_nodes_str fp).1 _ _ _ _ _ _ hP' nd hnd
          have hparsed : nd.parsed_string = s := by
            unfold Node.parsed_string
            rw [hstr, hst, hsp]
            simp
          refine ⟨nd, ?_, hparsed⟩
          refine List.mem_filter.mpr ⟨hnd, ?_⟩
          simp only [Node.is_complete, beq_iff_eq]
          rw [hstr, hparsed]

/-- Witness for C3 (amended): `g1` generates `"abb"` (among
`"a"`, `"ab"`, `"abb"`, `"abbb"`), and `parse_complete("abb")` indeed yields
the complete tree `c1tree`, whose matched substring is `"abb"`. -/
theorem c3_roundtrip_amended_witness :
    ∃ t ∈ [c1tree], t.parsed_string = "abb".data :=
  c3_roundtrip_amended g1 "main" 20
    [['a'], ['a', 'b'], ['a', 'b', 'b'], ['a', 'b', 'b', 'b']]
    "abb".data 50 [c1tree] (by decide) rfl (by decide) rfl
